import Mathlib

/-!
Verification of the tunnel cross-section point reordering tool (`src/app.py`).

The program reads a table (pandas `DataFrame`), computes a per-row polar
angle `theta = arctan2(y, x)` from two selected numeric columns, sorts the
rows by `theta` descending (clockwise), picks the third-quadrant row with
maximal x as the new start, performs a circular shift, drops the transient
`_theta` column, annotates the first row with a `Type` marker for display,
and serializes the resulting table to CSV/TSV.

The embedding below models the table manipulation exactly:
* cell values are rationals, strings, or missing (`NaN`); the transient
  angle column stores the pair `(x, y)` symbolically (`Value.angle`),
  compared by the exact mathematical `atan2` order rather than by
  floating-point approximation;
* `pandas.sort_values(ascending=False)` reverses the input, runs the
  kernel argsort ascending, and reverses the resulting indexer, so with a
  stable kernel the net effect is a stable descending sort with `NaN`
  keys moved to the end in original order.  numpy's default `quicksort`
  kernel is an introsort that degenerates to (stable) insertion sort for
  the partitions of at most 16 elements it is given directly, so for such
  inputs the behaviour is exactly a stable descending sort; the model
  uses `List.insertionSort`, which realizes that stable regime;
* `Series.idxmax` returns the positional label of the first occurrence of
  the maximal value;
* `df.iloc[k:]` / `df.iloc[:k]` and `pd.concat` are `List.drop`/`List.take`
  and append;
* errors surfaced through the `except` block of the app (a `KeyError` for
  a missing column, numpy's `TypeError` for a non-numeric column fed to
  `arctan2`) are an `Except.error` result.
-/

namespace TunnelSorter

/-- A cell of the table: a numeric value, a text value, a missing value
(pandas `NaN`), or the transient angle value `arctan2(y, x)` stored
symbolically as the coordinate pair that determines it. -/
inductive Value where
  | num (q : ℚ)
  | str (s : String)
  | na
  | angle (x y : ℚ)
deriving DecidableEq

abbrev Row := List Value

/-- An in-memory table: named columns and a list of rows (positionally
indexed, as after `reset_index(drop=True)`). -/
structure DataFrame where
  cols : List String
  rows : List Row
deriving DecidableEq

/-- Rectangularity: every row has one cell per column.  `pandas.read_csv`
only produces rectangular frames. -/
def Rect (df : DataFrame) : Prop := ∀ r ∈ df.rows, r.length = df.cols.length

/-! ### The exact `atan2` order

`np.arctan2(y, x)` has range `(-π, π]`.  Instead of floating point we
compare angles exactly: points are first classified into the eight
sign-regions, listed in increasing `atan2` value

  0 : x < 0, y < 0   θ ∈ (-π, -π/2)
  1 : x = 0, y < 0   θ = -π/2
  2 : x > 0, y < 0   θ ∈ (-π/2, 0)
  3 : y = 0, x ≥ 0   θ = 0          (includes the origin, atan2(0,0) = 0)
  4 : x > 0, y > 0   θ ∈ (0, π/2)
  5 : x = 0, y > 0   θ = π/2
  6 : x < 0, y > 0   θ ∈ (π/2, π)
  7 : x < 0, y = 0   θ = π

and inside one region the order of `atan2` coincides with the sign of the
cross product: within a fixed open quadrant `atan2(p) < atan2(q)` iff
`cross p q > 0`, and on the axis regions the cross product vanishes. -/

def cross (p q : ℚ × ℚ) : ℚ := p.1 * q.2 - p.2 * q.1

/-- Integer form of the cross product, with the same sign as `cross`
(multiplied by the product of the four positive denominators).  Kept in
`ℤ` so that concrete instances evaluate inside the kernel. -/
def crossZ (p q : ℚ × ℚ) : ℤ :=
  p.1.num * q.2.num * (p.2.den * q.1.den) - p.2.num * q.1.num * (p.1.den * q.2.den)

lemma rat_num_eq_mul_den (a : ℚ) : (a.num : ℚ) = a * a.den := by
  have hd : (a.den : ℚ) ≠ 0 := by positivity
  exact (div_eq_iff hd).mp (Rat.num_div_den a)

lemma crossZ_eq (p q : ℚ × ℚ) :
    (crossZ p q : ℚ) =
      cross p q * ((p.1.den : ℚ) * q.2.den * p.2.den * q.1.den) := by
  unfold crossZ cross
  push_cast
  rw [rat_num_eq_mul_den p.1, rat_num_eq_mul_den p.2, rat_num_eq_mul_den q.1,
    rat_num_eq_mul_den q.2]
  ring

lemma denProd_pos (p q : ℚ × ℚ) :
    0 < ((p.1.den : ℚ) * q.2.den * p.2.den * q.1.den) := by positivity

lemma crossZ_le_iff (p q : ℚ × ℚ) : crossZ p q ≤ 0 ↔ cross p q ≤ 0 := by
  have h1 : (crossZ p q ≤ 0) ↔ ((crossZ p q : ℚ) ≤ 0) := by exact_mod_cast Iff.rfl
  rw [h1, crossZ_eq]
  have hD := denProd_pos p q
  constructor <;> intro h <;> nlinarith

lemma crossZ_lt_iff (p q : ℚ × ℚ) : crossZ p q < 0 ↔ cross p q < 0 := by
  have h1 : (crossZ p q < 0) ↔ ((crossZ p q : ℚ) < 0) := by exact_mod_cast Iff.rfl
  rw [h1, crossZ_eq]
  have hD := denProd_pos p q
  constructor <;> intro h <;> nlinarith

lemma crossZ_eq_zero_iff (p q : ℚ × ℚ) : crossZ p q = 0 ↔ cross p q = 0 := by
  have h1 : (crossZ p q = 0) ↔ ((crossZ p q : ℚ) = 0) := by exact_mod_cast Iff.rfl
  rw [h1, crossZ_eq]
  have hD := denProd_pos p q
  constructor <;> intro h
  · rcases mul_eq_zero.mp h with h2 | h2
    · exact h2
    · exact absurd h2 (by positivity)
  · rw [h]; ring

def region (p : ℚ × ℚ) : ℕ :=
  if p.1 < 0 ∧ p.2 < 0 then 0
  else if p.1 = 0 ∧ p.2 < 0 then 1
  else if 0 < p.1 ∧ p.2 < 0 then 2
  else if p.2 = 0 ∧ 0 ≤ p.1 then 3
  else if 0 < p.1 ∧ 0 < p.2 then 4
  else if p.1 = 0 ∧ 0 < p.2 then 5
  else if p.1 < 0 ∧ 0 < p.2 then 6
  else 7

/-- `angleGe p q` states `atan2 p ≥ atan2 q` (with `atan2 (x, y)` short
for `atan2(y, x)`), expressed through the region table and the cross
product. -/
def angleGe (p q : ℚ × ℚ) : Prop :=
  region q < region p ∨ (region p = region q ∧ crossZ p q ≤ 0)

instance : ∀ p q : ℚ × ℚ, Decidable (angleGe p q) := fun p q => by
  unfold angleGe; infer_instance

/-- Strict version of `angleGe`. -/
def angleGt (p q : ℚ × ℚ) : Prop :=
  region q < region p ∨ (region p = region q ∧ crossZ p q < 0)

instance : ∀ p q : ℚ × ℚ, Decidable (angleGt p q) := fun p q => by
  unfold angleGt; infer_instance

/-- Two coordinate pairs with the same `atan2` angle. -/
def sameAngle (p q : ℚ × ℚ) : Prop :=
  region p = region q ∧ crossZ p q = 0

instance : ∀ p q : ℚ × ℚ, Decidable (sameAngle p q) := fun p q => by
  unfold sameAngle; infer_instance

/-- Exhaustive sign description of the eight regions. -/
lemma region_cases (p : ℚ × ℚ) :
    (region p = 0 ∧ p.1 < 0 ∧ p.2 < 0) ∨ (region p = 1 ∧ p.1 = 0 ∧ p.2 < 0) ∨
    (region p = 2 ∧ 0 < p.1 ∧ p.2 < 0) ∨ (region p = 3 ∧ p.2 = 0 ∧ 0 ≤ p.1) ∨
    (region p = 4 ∧ 0 < p.1 ∧ 0 < p.2) ∨ (region p = 5 ∧ p.1 = 0 ∧ 0 < p.2) ∨
    (region p = 6 ∧ p.1 < 0 ∧ 0 < p.2) ∨ (region p = 7 ∧ p.1 < 0 ∧ p.2 = 0) := by
  unfold region
  split_ifs with h1 h2 h3 h4 h5 h6 h7
  · exact Or.inl ⟨rfl, h1⟩
  · exact Or.inr (Or.inl ⟨rfl, h2⟩)
  · exact Or.inr (Or.inr (Or.inl ⟨rfl, h3⟩))
  · exact Or.inr (Or.inr (Or.inr (Or.inl ⟨rfl, h4⟩)))
  · exact Or.inr (Or.inr (Or.inr (Or.inr (Or.inl ⟨rfl, h5⟩))))
  · exact Or.inr (Or.inr (Or.inr (Or.inr (Or.inr (Or.inl ⟨rfl, h6⟩)))))
  · exact Or.inr (Or.inr (Or.inr (Or.inr (Or.inr (Or.inr (Or.inl ⟨rfl, h7⟩))))))
  · refine Or.inr (Or.inr (Or.inr (Or.inr (Or.inr (Or.inr (Or.inr ⟨rfl, ?_⟩))))))
    rcases lt_trichotomy p.1 0 with hx | hx | hx <;>
      rcases lt_trichotomy p.2 0 with hy | hy | hy
    · exact absurd ⟨hx, hy⟩ h1
    · exact ⟨hx, hy⟩
    · exact absurd ⟨hx, hy⟩ h7
    · exact absurd ⟨hx, hy⟩ h2
    · exact absurd ⟨hy, le_of_eq hx.symm⟩ h4
    · exact absurd ⟨hx, hy⟩ h6
    · exact absurd ⟨hx, hy⟩ h3
    · exact absurd ⟨hy, hx.le⟩ h4
    · exact absurd ⟨hx, hy⟩ h5

lemma cross_antisymm (p q : ℚ × ℚ) : cross q p = -cross p q := by
  unfold cross; ring

lemma crossZ_antisymm (p q : ℚ × ℚ) : crossZ q p = -crossZ p q := by
  unfold crossZ; ring

/-- Totality of the descending angle comparison. -/
lemma angleGe_total (p q : ℚ × ℚ) : angleGe p q ∨ angleGe q p := by
  unfold angleGe
  rcases Nat.lt_trichotomy (region p) (region q) with h | h | h
  · exact Or.inr (Or.inl h)
  · have := crossZ_antisymm p q
    rcases le_or_lt (crossZ p q) 0 with hc | hc
    · exact Or.inl (Or.inr ⟨h, hc⟩)
    · exact Or.inr (Or.inr ⟨h.symm, by linarith⟩)
  · exact Or.inl (Or.inl h)

/-- In a region where all first coordinates are positive, `cross · · ≤ 0`
is transitive. -/
lemma cross_trans_posx {a b c : ℚ × ℚ} (hax : 0 < a.1) (hbx : 0 < b.1) (hcx : 0 < c.1)
    (h1 : cross a b ≤ 0) (h2 : cross b c ≤ 0) : cross a c ≤ 0 := by
  have key : cross a c * b.1 = cross a b * c.1 + cross b c * a.1 := by
    unfold cross; ring
  have h3 : cross a b * c.1 ≤ 0 := by nlinarith
  have h4 : cross b c * a.1 ≤ 0 := by nlinarith
  nlinarith

/-- In a region where all first coordinates are negative, `cross · · ≤ 0`
is transitive. -/
lemma cross_trans_negx {a b c : ℚ × ℚ} (hax : a.1 < 0) (hbx : b.1 < 0) (hcx : c.1 < 0)
    (h1 : cross a b ≤ 0) (h2 : cross b c ≤ 0) : cross a c ≤ 0 := by
  have key : cross a c * b.1 = cross a b * c.1 + cross b c * a.1 := by
    unfold cross; ring
  have h3 : 0 ≤ cross a b * c.1 := by nlinarith
  have h4 : 0 ≤ cross b c * a.1 := by nlinarith
  nlinarith

/-- Transitivity of the descending angle comparison. -/
lemma angleGe_trans {a b c : ℚ × ℚ} (hab : angleGe a b) (hbc : angleGe b c) :
    angleGe a c := by
  unfold angleGe at *
  rcases hab with h1 | ⟨h1, hc1⟩
  · rcases hbc with h2 | ⟨h2, _⟩
    · exact Or.inl (h2.trans h1)
    · exact Or.inl (h2 ▸ h1)
  · rcases hbc with h2 | ⟨h2, hc2⟩
    · exact Or.inl (h1 ▸ h2)
    · refine Or.inr ⟨h1.trans h2, ?_⟩
      rw [crossZ_le_iff] at hc1 hc2 ⊢
      -- all three points lie in the same region
      have hra := region_cases a
      have hrb := region_cases b
      have hrc := region_cases c
      rcases hra with ⟨h, hx, hy⟩ | ⟨h, hx, hy⟩ | ⟨h, hx, hy⟩ | ⟨h, hy, hx⟩ |
        ⟨h, hx, hy⟩ | ⟨h, hx, hy⟩ | ⟨h, hx, hy⟩ | ⟨h, hx, hy⟩ <;>
      rcases hrb with ⟨h', hx', hy'⟩ | ⟨h', hx', hy'⟩ | ⟨h', hx', hy'⟩ | ⟨h', hy', hx'⟩ |
        ⟨h', hx', hy'⟩ | ⟨h', hx', hy'⟩ | ⟨h', hx', hy'⟩ | ⟨h', hx', hy'⟩ <;>
      rcases hrc with ⟨h'', hx'', hy''⟩ | ⟨h'', hx'', hy''⟩ | ⟨h'', hx'', hy''⟩ |
        ⟨h'', hy'', hx''⟩ | ⟨h'', hx'', hy''⟩ | ⟨h'', hx'', hy''⟩ |
        ⟨h'', hx'', hy''⟩ | ⟨h'', hx'', hy''⟩ <;>
      simp only [h, h'] at h1 <;> simp only [h', h''] at h2 <;> first
        | omega
        | (exact cross_trans_negx hx hx' hx'' hc1 hc2)
        | (exact cross_trans_posx hx hx' hx'' hc1 hc2)
        | (unfold cross at *; rw [hx, hx'']; ring_nf; simp [hx, hx''])
        | (unfold cross at *; rw [hy, hy'']; ring_nf; simp [hy, hy''])

/-! ### Sort keys

`df.sort_values(by='_theta', ascending=False)` sorts by the `_theta` cell.
The key of a row is that cell: an `angle` value, or `na` when the
coordinates were missing (`arctan2` maps `NaN` to `NaN`).  `nargsort`
masks the `NaN` entries out, sorts the rest (reversing before and after
the ascending kernel run, so a stable kernel yields a stable descending
order) and appends the `NaN` positions at the end in original order
(`na_position='last'`).  `vGe a b` therefore reads: the key `a` may come
at or before the key `b` in the descending order with `NaN` keys last. -/

def angKey : Value → Option (ℚ × ℚ)
  | .angle x y => some (x, y)
  | _ => none

def vGe (a b : Value) : Prop :=
  match angKey a, angKey b with
  | _, none => True
  | none, some _ => False
  | some ka, some kb => angleGe ka kb

instance : ∀ a b : Value, Decidable (vGe a b) := fun a b => by
  unfold vGe
  rcases angKey a with _ | ka <;> rcases angKey b with _ | kb <;>
    simp only <;> infer_instance

lemma vGe_total (a b : Value) : vGe a b ∨ vGe b a := by
  cases a <;> cases b <;> simp only [vGe, angKey] <;>
    first
      | exact Or.inl trivial
      | exact Or.inr trivial
      | exact angleGe_total ..

lemma vGe_trans {a b c : Value} : vGe a b → vGe b c → vGe a c := by
  cases a <;> cases b <;> cases c <;>
    simp only [vGe, angKey] <;> intro h1 h2 <;>
    first
      | trivial
      | exact h1.elim
      | exact h2.elim
      | exact angleGe_trans h1 h2

/-! ### Cells, rows and frames -/

/-- Positional cell access.  Pandas frames are rectangular, so the
default is never hit on well-formed input. -/
def getCell (r : Row) (i : ℕ) : Value := r.getD i .na

/-- Line 57: `theta = np.arctan2(df[y_col], df[x_col])`, one row.
`arctan2` raises on string cells — the caller checks for those first —
and yields `NaN` when an operand is `NaN` (a missing cell). -/
def rowTheta (xi yi : ℕ) (r : Row) : Value :=
  match getCell r xi, getCell r yi with
  | .num x, .num y => .angle x y
  | _, _ => .na

/-- Row comparison used by `sort_values(by='_theta', ascending=False)`:
compare the cells in column `ti` (the `_theta` column). -/
def colR (ti : ℕ) (r1 r2 : Row) : Prop := vGe (getCell r1 ti) (getCell r2 ti)

instance colR.instDecidable (ti : ℕ) : DecidableRel (colR ti) := fun r1 r2 => by
  unfold colR; infer_instance

/-- Comparison of two rows by the angle computed from their `xi`/`yi`
cells (the `_theta` key expressed directly through the coordinates). -/
def thetaR (xi yi : ℕ) (r1 r2 : Row) : Prop :=
  vGe (rowTheta xi yi r1) (rowTheta xi yi r2)

instance thetaR.instDecidable (xi yi : ℕ) : DecidableRel (thetaR xi yi) := fun r1 r2 => by
  unfold thetaR; infer_instance

/-- First position of a column label, pandas-style lookup (`read_csv`
mangles duplicate labels, so frames it produces have distinct labels). -/
def colIdx? : List String → String → Option ℕ
  | [], _ => none
  | c' :: cs, c => if c' = c then some 0 else (colIdx? cs c).map (· + 1)

/-- `df[c] = vals` column assignment: overwrite the cells in place when
the label exists, else append a new column on the right. -/
def setCol (t : DataFrame) (c : String) (vals : List Value) : DataFrame :=
  match colIdx? t.cols c with
  | some i => ⟨t.cols, List.zipWith (fun r v => r.set i v) t.rows vals⟩
  | none => ⟨t.cols ++ [c], List.zipWith (fun r v => r ++ [v]) t.rows vals⟩

/-- `df.drop(columns=[c])`. -/
def dropColumn (t : DataFrame) (c : String) : DataFrame :=
  match colIdx? t.cols c with
  | some i => ⟨t.cols.eraseIdx i, t.rows.map (·.eraseIdx i)⟩
  | none => t

/-! ### Lines 57–86: the reordering pipeline -/

/-- `x < 0` on a cell; a comparison with `NaN` is `False` in pandas.
The `angle` branch is also `False`: an angle cell reaches this test only
when the transient `_theta` column itself is selected as a coordinate
(line 66 then reads the float angles written at line 58), a configuration
every theorem below excludes through a `"_theta" ∉ df.cols` hypothesis. -/
def numLt0 : Value → Bool
  | .num q => decide (q < 0)
  | _ => false

/-- Line 66: the third-quadrant mask `(df[x] < 0) & (df[y] < 0)`. -/
def isQ3 (xi yi : ℕ) (r : Row) : Bool := numLt0 (getCell r xi) && numLt0 (getCell r yi)

/-- Strict `>` between two cells, `False` unless both are numeric. -/
def numGt (a b : Value) : Bool :=
  match a, b with
  | .num p, .num q => decide (q < p)
  | _, _ => false

/-- The rows paired with their positional labels (`reset_index(drop=True)`
followed by a boolean mask keeps the positional labels). -/
def idxd : ℕ → List Row → List (ℕ × Row)
  | _, [] => []
  | n, r :: rs => (n, r) :: idxd (n + 1) rs

/-- Line 67: `q3_points = df_sorted[q3_mask]`, with their labels. -/
def q3Entries (xi yi : ℕ) (d : List Row) : List (ℕ × Row) :=
  (idxd 0 d).filter fun p => isQ3 xi yi p.2

/-- `Series.idxmax`: label of the first occurrence of the maximal value
(the accumulator is replaced only on strictly larger values). -/
def idxmaxX (xi : ℕ) (h : ℕ × Row) (t : List (ℕ × Row)) : ℕ × Row :=
  t.foldl (fun best cur => if numGt (getCell cur.2 xi) (getCell best.2 xi) then cur else best) h

/-- Lines 71–77: start index 0 when no third-quadrant point exists, else
the label of the first maximal-x third-quadrant row. -/
def startIndex (xi yi : ℕ) (d : List Row) : ℕ :=
  match q3Entries xi yi d with
  | [] => 0
  | h :: t => (idxmaxX xi h t).1

/-- Line 71: `q3_points.empty`, deciding whether the warning is shown. -/
def q3IsEmpty (xi yi : ℕ) (d : List Row) : Bool := d.all fun r => !isQ3 xi yi r

/-- Line 57: the `theta` series. -/
def thetaSeries (xi yi : ℕ) (rows : List Row) : List Value := rows.map (rowTheta xi yi)

/-- Line 58: `df['_theta'] = theta` — the only mutation of the input
frame. -/
def dfTheta (df : DataFrame) (xi yi : ℕ) : DataFrame :=
  setCol df "_theta" (thetaSeries xi yi df.rows)

/-- Position of the `_theta` column after line 58 (always present). -/
def thetaIdx (df : DataFrame) (xi yi : ℕ) : ℕ :=
  (colIdx? (dfTheta df xi yi).cols "_theta").getD 0

/-- Line 62: `df_sorted = df.sort_values(by='_theta', ascending=False)`,
modelled in the stable regime (see the header comment). -/
def dfSorted (df : DataFrame) (xi yi : ℕ) : DataFrame :=
  ⟨(dfTheta df xi yi).cols,
    List.insertionSort (colR (thetaIdx df xi yi)) (dfTheta df xi yi).rows⟩

/-- Lines 66–77 applied to the sorted frame. -/
def startIdx (df : DataFrame) (xi yi : ℕ) : ℕ :=
  startIndex xi yi (dfSorted df xi yi).rows

/-- Whether the no-third-quadrant warning is emitted. -/
def warnedB (df : DataFrame) (xi yi : ℕ) : Bool :=
  q3IsEmpty xi yi (dfSorted df xi yi).rows

/-- Lines 80–83: the circular shift
`pd.concat([df_sorted.iloc[k:], df_sorted.iloc[:k]])`. -/
def dfShifted (df : DataFrame) (xi yi : ℕ) : DataFrame :=
  ⟨(dfSorted df xi yi).cols,
    (dfSorted df xi yi).rows.drop (startIdx df xi yi) ++
      (dfSorted df xi yi).rows.take (startIdx df xi yi)⟩

/-- Line 86: `df_final.drop(columns=['_theta'], inplace=True)`. -/
def dfFinal (df : DataFrame) (xi yi : ℕ) : DataFrame :=
  dropColumn (dfShifted df xi yi) "_theta"

/-- What the app hands to display and export: the reordered table, the
start index reported in the caption, and whether the warning was shown. -/
structure ReorderOutput where
  df_final : DataFrame
  start_index : ℕ
  warned : Bool
deriving DecidableEq

def isStrV : Value → Bool
  | .str _ => true
  | _ => false

/-- A string cell in a selected coordinate column makes the column dtype
`object` and `np.arctan2` raise a `TypeError`. -/
def hasStrCells (df : DataFrame) (xi yi : ℕ) : Bool :=
  df.rows.any fun r => isStrV (getCell r xi) || isStrV (getCell r yi)

/-- Lines 57–86 as one operation.  A missing column label raises a
`KeyError`, a non-numeric column a `TypeError`; both are caught by the
app's `except` block, which shows an error and produces no result. -/
def reorder (df : DataFrame) (xc yc : String) : Except String ReorderOutput :=
  match colIdx? df.cols xc, colIdx? df.cols yc with
  | some xi, some yi =>
    if hasStrCells df xi yi then
      Except.error "TypeError: arctan2 not supported for non-numeric columns"
    else
      Except.ok ⟨dfFinal df xi yi, startIdx df xi yi, warnedB df xi yi⟩
  | _, _ => Except.error "KeyError: selected column not found"

/-! ### Lines 100–101 and 117–120: display annotation and export -/

/-- `df.loc[0, col] = v` with `col` at position `i`: writes into the
first row, or — pandas setting-with-enlargement — appends a row of `NaN`
with only that cell set when the frame has no rows. -/
def setLocZero (t : DataFrame) (i : ℕ) (v : Value) : DataFrame :=
  match t.rows with
  | [] => ⟨t.cols, [(List.replicate t.cols.length Value.na).set i v]⟩
  | r :: rs => ⟨t.cols, r.set i v :: rs⟩

/-- Lines 100–101: `df_final['Type'] = 'Other Points'` then
`df_final.loc[0, 'Type'] = 'Start Point (New Node 1)'`.  This mutates
`df_final` before the download section serializes it. -/
def addTypeCol (t : DataFrame) : DataFrame :=
  let t1 := setCol t "Type" (t.rows.map fun _ => Value.str "Other Points")
  setLocZero t1 ((colIdx? t1.cols "Type").getD 0) (Value.str "Start Point (New Node 1)")

/-- The table serialized by `df_final.to_csv(...)` at lines 117/120; its
header row is `exportTable.cols`. -/
def exportTable (t : DataFrame) : DataFrame := addTypeCol t

instance : DecidableEq (Except String ReorderOutput) := fun a b =>
  match a, b with
  | .ok a', .ok b' => decidable_of_iff (a' = b') (by simp)
  | .error e, .error e' => decidable_of_iff (e = e') (by simp)
  | .ok _, .error _ => isFalse (by simp)
  | .error _, .ok _ => isFalse (by simp)

instance (df : DataFrame) : Decidable (Rect df) := by
  unfold Rect; infer_instance

/-! ### Helper lemmas: cells, rows, column lookup -/

def isNumV : Value → Bool
  | .num _ => true
  | _ => false

/-- Numeric content of a cell; only ever applied to `num` cells in the
statements below (the third-quadrant mask guarantees numeric cells). -/
def ratOf : Value → ℚ
  | .num q => q
  | _ => 0

lemma numGt_iff {a b : Value} (ha : isNumV a = true) (hb : isNumV b = true) :
    numGt a b = true ↔ ratOf b < ratOf a := by
  cases a <;> cases b <;> simp_all [isNumV, numGt, ratOf]

lemma numGt_num_num {p q : ℚ} : numGt (.num p) (.num q) = true ↔ q < p := by
  simp [numGt]

lemma isQ3_isNum {xi yi : ℕ} {r : Row} (h : isQ3 xi yi r = true) :
    isNumV (getCell r xi) = true ∧ isNumV (getCell r yi) = true := by
  unfold isQ3 numLt0 at h
  constructor
  · revert h; cases getCell r xi <;> simp [isNumV]
  · revert h; cases getCell r yi <;> simp [isNumV]

lemma getCell_append_lt (r r2 : Row) (i : ℕ) (h : i < r.length) :
    getCell (r ++ r2) i = getCell r i := by
  unfold getCell; rw [List.getD_append _ _ _ _ h]

lemma getCell_concat_length (r : Row) (v : Value) : getCell (r ++ [v]) r.length = v := by
  unfold getCell; simp [List.getD_eq_getElem?_getD]

lemma getD_eraseIdx_lt {α : Type} :
    ∀ (l : List α) (i j : ℕ) (d : α), j < i → (l.eraseIdx i).getD j d = l.getD j d
  | [], _, _, _, _ => by simp [List.eraseIdx]
  | _ :: _, 0, j, _, h => absurd h (Nat.not_lt_zero j)
  | a :: l, i + 1, 0, d, _ => by simp [List.eraseIdx]
  | a :: l, i + 1, j + 1, d, h => by
    simp only [List.eraseIdx, List.getD_cons_succ]
    exact getD_eraseIdx_lt l i j d (Nat.lt_of_succ_lt_succ h)

lemma getCell_eraseIdx_lt (r : Row) (i j : ℕ) (h : j < i) :
    getCell (r.eraseIdx i) j = getCell r j := getD_eraseIdx_lt r i j .na h

lemma eraseIdx_concat_length {α : Type} :
    ∀ (l : List α) (v : α), (l ++ [v]).eraseIdx l.length = l
  | [], _ => rfl
  | a :: l, v => by
    simpa [List.eraseIdx] using eraseIdx_concat_length l v

lemma eraseIdx_set_same {α : Type} :
    ∀ (l : List α) (i : ℕ) (v : α), (l.set i v).eraseIdx i = l.eraseIdx i
  | [], _, _ => rfl
  | _ :: _, 0, _ => rfl
  | a :: l, i + 1, v => by
    simpa [List.set, List.eraseIdx] using eraseIdx_set_same l i v

lemma zipWith_map_self {α β γ : Type} :
    ∀ (l : List α) (g : α → β → γ) (h : α → β),
      List.zipWith g l (l.map h) = l.map fun a => g a (h a)
  | [], _, _ => rfl
  | a :: l, g, h => by simpa using zipWith_map_self l g h

lemma colIdx?_eq_none_iff : ∀ (cols : List String) (c : String),
    colIdx? cols c = none ↔ c ∉ cols
  | [], c => by simp [colIdx?]
  | c' :: cols, c => by
    by_cases h : c' = c
    · simp [colIdx?, h]
    · simp only [colIdx?, if_neg h, Option.map_eq_none']
      rw [colIdx?_eq_none_iff cols c]
      constructor
      · intro h2 h3
        rcases List.mem_cons.mp h3 with h4 | h4
        · exact h h4.symm
        · exact h2 h4
      · intro h2 h3
        exact h2 (List.mem_cons_of_mem _ h3)

lemma colIdx?_lt_length : ∀ {cols : List String} {c : String} {i : ℕ},
    colIdx? cols c = some i → i < cols.length := by
  intro cols
  induction cols with
  | nil => intro c i h; simp [colIdx?] at h
  | cons c' cols ih =>
    intro c i h
    by_cases hc : c' = c
    · simp [colIdx?, hc] at h
      simp only [List.length_cons]
      omega
    · simp only [colIdx?, if_neg hc, Option.map_eq_some'] at h
      obtain ⟨j, hj, rfl⟩ := h
      have := ih hj
      simp only [List.length_cons]
      omega

lemma colIdx?_get? : ∀ {cols : List String} {c : String} {i : ℕ},
    colIdx? cols c = some i → cols.get? i = some c := by
  intro cols
  induction cols with
  | nil => intro c i h; simp [colIdx?] at h
  | cons c' cols ih =>
    intro c i h
    by_cases hc : c' = c
    · simp [colIdx?, hc] at h
      simp [← h, hc]
    · simp only [colIdx?, if_neg hc, Option.map_eq_some'] at h
      obtain ⟨j, hj, rfl⟩ := h
      simpa using ih hj

lemma colIdx?_concat_self : ∀ {cols : List String} {c : String}, c ∉ cols →
    colIdx? (cols ++ [c]) c = some cols.length := by
  intro cols
  induction cols with
  | nil => intro c _; simp [colIdx?]
  | cons c' cols ih =>
    intro c hc
    have h1 : c' ≠ c := fun h => hc (h ▸ List.mem_cons_self c' cols)
    have h2 : c ∉ cols := fun h => hc (List.mem_cons_of_mem c' h)
    simp [colIdx?, h1, ih h2]

lemma colIdx?_isSome_of_mem : ∀ {cols : List String} {c : String}, c ∈ cols →
    ∃ i, colIdx? cols c = some i := by
  intro cols c hc
  rcases h : colIdx? cols c with _ | i
  · exact absurd ((colIdx?_eq_none_iff cols c).1 h) (not_not_intro hc)
  · exact ⟨i, rfl⟩

/-! ### Helper lemmas: the `idxmax` fold and the third-quadrant entries -/

lemma numGt_isNum {a b : Value} (h : numGt a b = true) :
    isNumV a = true ∧ isNumV b = true ∧ ratOf b < ratOf a := by
  cases a <;> cases b <;> simp_all [numGt, isNumV, ratOf]

lemma numGt_irrefl (a : Value) : numGt a a = false := by
  cases a <;> simp [numGt]

lemma numGt_trans {a b c : Value} (h1 : numGt a b = true) (h2 : numGt b c = true) :
    numGt a c = true := by
  cases a <;> cases b <;> cases c <;> simp_all [numGt] <;> linarith

lemma numGt_asymm {a b : Value} (h : numGt a b = true) : numGt b a = false := by
  cases a <;> cases b <;> simp_all [numGt] <;> linarith

lemma idxd_label_ge : ∀ (n : ℕ) (d : List Row), ∀ p ∈ idxd n d, n ≤ p.1
  | _, [] => by simp [idxd]
  | n, r :: rs => by
    intro p hp
    rcases List.mem_cons.mp hp with h | h
    · simp [h]
    · have := idxd_label_ge (n + 1) rs p h
      omega

lemma idxd_pairwise : ∀ (n : ℕ) (d : List Row),
    (idxd n d).Pairwise fun p q => p.1 < q.1
  | _, [] => List.Pairwise.nil
  | n, r :: rs => by
    refine List.Pairwise.cons ?_ (idxd_pairwise (n + 1) rs)
    intro p hp
    have := idxd_label_ge (n + 1) rs p hp
    omega

lemma mem_idxd_get? : ∀ {n : ℕ} {d : List Row} {j : ℕ} {r : Row},
    (j, r) ∈ idxd n d → n ≤ j ∧ d.get? (j - n) = some r := by
  intro n d
  induction d generalizing n with
  | nil => intro j r h; simp [idxd] at h
  | cons r' rs ih =>
    intro j r h
    rcases List.mem_cons.mp h with h1 | h1
    · obtain ⟨h2, h3⟩ := Prod.mk.injEq .. ▸ h1
      simp only [Prod.mk.injEq] at h1
      obtain ⟨rfl, rfl⟩ := h1
      simp
    · obtain ⟨h2, h3⟩ := ih h1
      refine ⟨by omega, ?_⟩
      have hj : j - n = (j - (n + 1)) + 1 := by omega
      rw [hj]
      simpa using h3

lemma get?_mem_idxd : ∀ {n m : ℕ} {d : List Row} {r : Row},
    d.get? m = some r → (n + m, r) ∈ idxd n d := by
  intro n m d
  induction d generalizing n m with
  | nil => intro r h; simp at h
  | cons r' rs ih =>
    intro r h
    cases m with
    | zero =>
      simp only [List.get?_cons_zero, Option.some.injEq] at h
      simp [idxd, h]
    | succ m =>
      simp only [List.get?_cons_succ] at h
      have := ih (n := n + 1) h
      refine List.mem_cons_of_mem _ ?_
      have hn : n + 1 + m = n + (m + 1) := by omega
      rwa [hn] at this

lemma mem_q3Entries {xi yi : ℕ} {d : List Row} {j : ℕ} {r : Row} :
    (j, r) ∈ q3Entries xi yi d ↔ d.get? j = some r ∧ isQ3 xi yi r = true := by
  unfold q3Entries
  rw [List.mem_filter]
  constructor
  · intro ⟨h1, h2⟩
    have h3 := (mem_idxd_get? h1).2
    simp only [Nat.sub_zero] at h3
    exact ⟨h3, h2⟩
  · intro ⟨h1, h2⟩
    exact ⟨by simpa using get?_mem_idxd (n := 0) h1, h2⟩

lemma q3Entries_pairwise (xi yi : ℕ) (d : List Row) :
    (q3Entries xi yi d).Pairwise fun p q => p.1 < q.1 :=
  (idxd_pairwise 0 d).filter _

lemma q3Entries_eq_nil_iff {xi yi : ℕ} {d : List Row} :
    q3Entries xi yi d = [] ↔ ∀ r ∈ d, isQ3 xi yi r = false := by
  unfold q3Entries
  rw [List.filter_eq_nil_iff]
  constructor
  · intro h r hr
    obtain ⟨m, hm⟩ := List.mem_iff_get?.mp hr
    have := h (m, r) (by simpa using get?_mem_idxd (n := 0) hm)
    simpa using this
  · intro h p hp
    have h2 := (mem_idxd_get? (n := 0) hp).2
    simp only [Nat.sub_zero] at h2
    have : p.2 ∈ d := List.mem_iff_get?.mpr ⟨p.1, h2⟩
    simp [h p.2 this]

lemma q3IsEmpty_iff {xi yi : ℕ} {d : List Row} :
    q3IsEmpty xi yi d = true ↔ ∀ r ∈ d, isQ3 xi yi r = false := by
  unfold q3IsEmpty
  rw [List.all_eq_true]
  constructor
  · intro h r hr
    simpa using h r hr
  · intro h r hr
    simp [h r hr]

lemma idxmaxX_cons (xi : ℕ) (h c : ℕ × Row) (t : List (ℕ × Row)) :
    idxmaxX xi h (c :: t) =
      idxmaxX xi (if numGt (getCell c.2 xi) (getCell h.2 xi) then c else h) t := rfl

lemma idxmaxX_mem (xi : ℕ) : ∀ (t : List (ℕ × Row)) (h : ℕ × Row),
    idxmaxX xi h t ∈ h :: t
  | [], h => List.mem_cons_self h []
  | c :: t, h => by
    rw [idxmaxX_cons]
    by_cases hc : numGt (getCell c.2 xi) (getCell h.2 xi) = true
    · rw [if_pos hc]
      rcases List.mem_cons.mp (idxmaxX_mem xi t c) with h1 | h1 <;> simp [h1]
    · rw [if_neg hc]
      rcases List.mem_cons.mp (idxmaxX_mem xi t h) with h1 | h1 <;> simp [h1]

lemma idxmaxX_acc (xi : ℕ) : ∀ (t : List (ℕ × Row)) (h : ℕ × Row),
    idxmaxX xi h t = h ∨ numGt (getCell (idxmaxX xi h t).2 xi) (getCell h.2 xi) = true
  | [], _ => Or.inl rfl
  | c :: t, h => by
    rw [idxmaxX_cons]
    by_cases hc : numGt (getCell c.2 xi) (getCell h.2 xi) = true
    · rw [if_pos hc]
      rcases idxmaxX_acc xi t c with h1 | h1
      · refine Or.inr ?_
        rw [h1]
        exact hc
      · exact Or.inr (numGt_trans h1 hc)
    · rw [if_neg hc]
      exact idxmaxX_acc xi t h

lemma idxmaxX_max (xi : ℕ) : ∀ (t : List (ℕ × Row)) (h : ℕ × Row),
    ∀ p ∈ h :: t, numGt (getCell p.2 xi) (getCell (idxmaxX xi h t).2 xi) = false
  | [], h => by
    intro p hp
    rcases List.mem_cons.mp hp with h1 | h1
    · rw [h1]; exact numGt_irrefl _
    · simp at h1
  | c :: t, h => by
    intro p hp
    rw [idxmaxX_cons]
    by_cases hc : numGt (getCell c.2 xi) (getCell h.2 xi) = true
    · rw [if_pos hc]
      rcases List.mem_cons.mp hp with h1 | h1
      · -- p = h: strictly below c, and c is at most the result
        rw [h1]
        cases h2 : numGt (getCell h.2 xi) (getCell (idxmaxX xi c t).2 xi) with
        | false => rfl
        | true =>
          exfalso
          rcases idxmaxX_acc xi t c with h3 | h3
          · rw [h3] at h2
            exact absurd hc (by simp [numGt_asymm h2])
          · have h4 := numGt_trans (numGt_trans h3 hc) h2
            simp [numGt_irrefl] at h4
      · exact idxmaxX_max xi t c p h1
    · rw [if_neg hc]
      rcases List.mem_cons.mp hp with h1 | h1
      · rw [h1]
        exact idxmaxX_max xi t h h (List.mem_cons_self h t)
      · rcases List.mem_cons.mp h1 with h2 | h2
        · -- p = c: c is not above h, and h is at most the result
          rw [h2]
          cases h3 : numGt (getCell c.2 xi) (getCell (idxmaxX xi h t).2 xi) with
          | false => rfl
          | true =>
            exfalso
            rcases idxmaxX_acc xi t h with h4 | h4
            · rw [h4] at h3
              exact absurd h3 hc
            · exact absurd (numGt_trans h3 h4) hc
        · exact idxmaxX_max xi t h p (List.mem_cons_of_mem h h2)

lemma le_of_numGt_false {a b : Value} (ha : isNumV a = true) (hb : isNumV b = true)
    (h : numGt a b = false) : ratOf a ≤ ratOf b := by
  by_contra hcon
  push_neg at hcon
  rw [(numGt_iff ha hb).mpr hcon] at h
  cases h

lemma idxmaxX_first (xi : ℕ) : ∀ (t : List (ℕ × Row)) (h : ℕ × Row),
    ((h :: t).Pairwise fun p q => p.1 < q.1) →
    (∀ p ∈ h :: t, isNumV (getCell p.2 xi) = true) →
    ∀ p ∈ h :: t, p.1 < (idxmaxX xi h t).1 →
      ratOf (getCell p.2 xi) < ratOf (getCell (idxmaxX xi h t).2 xi)
  | [], h => by
    intro _ _ p hp hlt
    rcases List.mem_cons.mp hp with h1 | h1
    · rw [h1] at hlt
      simp [idxmaxX] at hlt
    · simp at h1
  | c :: t, h => by
    intro hpw hnum p hp hlt
    have hpw1 := List.pairwise_cons.mp hpw
    have hhc : h.1 < c.1 := hpw1.1 c (List.mem_cons_self c t)
    rw [idxmaxX_cons] at hlt ⊢
    by_cases hc : numGt (getCell c.2 xi) (getCell h.2 xi) = true
    · rw [if_pos hc] at hlt ⊢
      have hnum' : ∀ q ∈ c :: t, isNumV (getCell q.2 xi) = true := fun q hq =>
        hnum q (List.mem_cons_of_mem h hq)
      rcases List.mem_cons.mp hp with h1 | h1
      · -- p = h: strictly below c, which is at most the result
        rw [h1]
        have hresmem := idxmaxX_mem xi t c
        have hmax := idxmaxX_max xi t c c (List.mem_cons_self c t)
        have h2 := le_of_numGt_false (hnum' c (List.mem_cons_self c t)) (hnum' _ hresmem) hmax
        exact lt_of_lt_of_le (numGt_isNum hc).2.2 h2
      · exact idxmaxX_first xi t c hpw1.2 hnum' p h1 hlt
    · rw [if_neg hc] at hlt ⊢
      have hpw2 : (h :: t).Pairwise fun p q => p.1 < q.1 :=
        List.Pairwise.cons (fun b hb => hpw1.1 b (List.mem_cons_of_mem c hb))
          (List.pairwise_cons.mp hpw1.2).2
      have hnum'' : ∀ q ∈ h :: t, isNumV (getCell q.2 xi) = true := by
        intro q hq
        rcases List.mem_cons.mp hq with h1 | h1
        · exact hnum q (h1 ▸ List.mem_cons_self h (c :: t))
        · exact hnum q (List.mem_cons_of_mem h (List.mem_cons_of_mem c h1))
      rcases List.mem_cons.mp hp with h1 | h1
      · exact idxmaxX_first xi t h hpw2 hnum'' p (h1 ▸ List.mem_cons_self h t) hlt
      · rcases List.mem_cons.mp h1 with h2 | h2
        · -- p = c: it sits below h in the order, and h is at most the result
          rw [h2] at hlt ⊢
          rcases idxmaxX_acc xi t h with h3 | h3
          · rw [h3] at hlt
            omega
          · have hrh := (numGt_isNum h3).2.2
            have hch := le_of_numGt_false (hnum c (List.mem_cons_of_mem h (List.mem_cons_self c t)))
              (hnum h (List.mem_cons_self h (c :: t))) (Bool.eq_false_iff.mpr hc)
            exact lt_of_le_of_lt hch hrh
        · exact idxmaxX_first xi t h hpw2 hnum'' p (List.mem_cons_of_mem h h2) hlt

/-- Combined specification of `startIndex` on a frame with at least one
third-quadrant row: it is the position of a third-quadrant row whose x
value is maximal, and every strictly earlier third-quadrant row has a
strictly smaller x value. -/
lemma startIndex_spec {xi yi : ℕ} {d : List Row} (hne : q3Entries xi yi d ≠ []) :
    ∃ rk, d.get? (startIndex xi yi d) = some rk ∧ isQ3 xi yi rk = true ∧
      (∀ p ∈ q3Entries xi yi d, ratOf (getCell p.2 xi) ≤ ratOf (getCell rk xi)) ∧
      (∀ p ∈ q3Entries xi yi d, p.1 < startIndex xi yi d →
        ratOf (getCell p.2 xi) < ratOf (getCell rk xi)) := by
  rcases hq : q3Entries xi yi d with _ | ⟨h, t⟩
  · exact absurd hq hne
  have hsi : startIndex xi yi d = (idxmaxX xi h t).1 := by
    unfold startIndex
    rw [hq]
  have hresmem : idxmaxX xi h t ∈ q3Entries xi yi d := hq ▸ idxmaxX_mem xi t h
  have hres := mem_q3Entries.mp (by
    have : ((idxmaxX xi h t).1, (idxmaxX xi h t).2) = idxmaxX xi h t := rfl
    rw [this]
    exact hresmem)
  have hnum : ∀ p ∈ h :: t, isNumV (getCell p.2 xi) = true := by
    intro p hp
    have hp2 : p ∈ q3Entries xi yi d := hq ▸ hp
    exact (isQ3_isNum (mem_q3Entries.mp hp2).2).1
  refine ⟨(idxmaxX xi h t).2, hsi ▸ hres.1, hres.2, ?_, ?_⟩
  · intro p hp
    exact le_of_numGt_false (hnum p hp) (hnum _ (idxmaxX_mem xi t h))
      (idxmaxX_max xi t h p hp)
  · intro p hp hlt
    rw [hsi] at hlt
    exact idxmaxX_first xi t h (hq ▸ q3Entries_pairwise xi yi d) hnum p hp hlt

lemma startIndex_eq_zero {xi yi : ℕ} {d : List Row} (h : q3Entries xi yi d = []) :
    startIndex xi yi d = 0 := by
  unfold startIndex
  rw [h]

lemma startIndex_lt_length {xi yi : ℕ} {d : List Row} (hne : q3Entries xi yi d ≠ []) :
    startIndex xi yi d < d.length := by
  obtain ⟨rk, h1, -⟩ := @startIndex_spec xi yi d hne
  exact (List.get?_eq_some.mp h1).1

/-! ### Helper lemmas: the sorted frame and the happy path of `reorder` -/

instance colR.instIsTotal (ti : ℕ) : IsTotal Row (colR ti) :=
  ⟨fun _ _ => vGe_total _ _⟩

instance colR.instIsTrans (ti : ℕ) : IsTrans Row (colR ti) :=
  ⟨fun _ _ _ => vGe_trans⟩

/-- The row transformation performed by `df['_theta'] = theta` on a frame
without a `_theta` column. -/
def appendTheta (xi yi : ℕ) (r : Row) : Row := r ++ [rowTheta xi yi r]

lemma dfTheta_eq {df : DataFrame} {xi yi : ℕ} (hθ : "_theta" ∉ df.cols) :
    dfTheta df xi yi =
      ⟨df.cols ++ ["_theta"], df.rows.map (appendTheta xi yi)⟩ := by
  unfold dfTheta setCol thetaSeries
  rw [(colIdx?_eq_none_iff df.cols "_theta").mpr hθ]
  simp only [zipWith_map_self]
  rfl

lemma thetaIdx_eq {df : DataFrame} {xi yi : ℕ} (hθ : "_theta" ∉ df.cols) :
    thetaIdx df xi yi = df.cols.length := by
  unfold thetaIdx
  rw [dfTheta_eq hθ]
  simp only
  rw [colIdx?_concat_self hθ]
  rfl

lemma getCell_appendTheta_lt {xi yi i : ℕ} {r : Row} (h : i < r.length) :
    getCell (appendTheta xi yi r) i = getCell r i :=
  getCell_append_lt r _ i h

lemma getCell_appendTheta_len {xi yi : ℕ} {r : Row} :
    getCell (appendTheta xi yi r) r.length = rowTheta xi yi r :=
  getCell_concat_length r _

lemma eraseIdx_appendTheta {xi yi : ℕ} {r : Row} :
    (appendTheta xi yi r).eraseIdx r.length = r :=
  eraseIdx_concat_length r _

/-- The sorted frame (with the `_theta` column appended) in the
non-collision case. -/
lemma dfSorted_rows_eq {df : DataFrame} {xi yi : ℕ} (hθ : "_theta" ∉ df.cols) :
    (dfSorted df xi yi).rows =
      List.insertionSort (colR (thetaIdx df xi yi)) (df.rows.map (appendTheta xi yi)) := by
  unfold dfSorted
  rw [dfTheta_eq hθ]

lemma dfSorted_cols_eq {df : DataFrame} {xi yi : ℕ} (hθ : "_theta" ∉ df.cols) :
    (dfSorted df xi yi).cols = df.cols ++ ["_theta"] := by
  unfold dfSorted
  rw [dfTheta_eq hθ]

lemma dfSorted_rows_perm (df : DataFrame) (xi yi : ℕ) :
    (dfSorted df xi yi).rows.Perm (dfTheta df xi yi).rows :=
  List.perm_insertionSort _ _

lemma dfSorted_rows_sorted (df : DataFrame) (xi yi : ℕ) :
    (dfSorted df xi yi).rows.Sorted (colR (thetaIdx df xi yi)) :=
  List.sorted_insertionSort _ _

/-- The rows of the shifted frame: a circular shift of the sorted rows. -/
lemma dfShifted_rows (df : DataFrame) (xi yi : ℕ) :
    (dfShifted df xi yi).rows =
      (dfSorted df xi yi).rows.drop (startIdx df xi yi) ++
        (dfSorted df xi yi).rows.take (startIdx df xi yi) := rfl

lemma drop_append_take_perm {α : Type} (l : List α) (k : ℕ) :
    (l.drop k ++ l.take k).Perm l := by
  have h1 : (l.drop k ++ l.take k).Perm (l.take k ++ l.drop k) := List.perm_append_comm
  rwa [List.take_append_drop k l] at h1

/-- The happy path of `reorder`. -/
lemma reorder_eq_ok {df : DataFrame} {xc yc : String} {xi yi : ℕ}
    (hx : colIdx? df.cols xc = some xi) (hy : colIdx? df.cols yc = some yi)
    (hs : hasStrCells df xi yi = false) :
    reorder df xc yc =
      Except.ok ⟨dfFinal df xi yi, startIdx df xi yi, warnedB df xi yi⟩ := by
  unfold reorder
  rw [hx, hy]
  dsimp only
  rw [hs]
  rfl

/-- Inversion of a successful `reorder`. -/
lemma reorder_ok_elim {df : DataFrame} {xc yc : String} {out : ReorderOutput}
    (h : reorder df xc yc = Except.ok out) :
    ∃ xi yi, colIdx? df.cols xc = some xi ∧ colIdx? df.cols yc = some yi ∧
      hasStrCells df xi yi = false ∧
      out = ⟨dfFinal df xi yi, startIdx df xi yi, warnedB df xi yi⟩ := by
  unfold reorder at h
  rcases hx : colIdx? df.cols xc with _ | xi <;> rw [hx] at h <;>
    rcases hy : colIdx? df.cols yc with _ | yi <;> rw [hy] at h <;>
      dsimp only at h
  · cases h
  · cases h
  · cases h
  rcases hs : hasStrCells df xi yi with _ | _ <;> rw [hs] at h
  · rw [if_neg (by simp)] at h
    injection h with h2
    exact ⟨xi, yi, rfl, rfl, hs, h2.symm⟩
  · rw [if_pos rfl] at h
    cases h

/-- Two lists that are permutations of each other and both strictly
sorted by an asymmetric relation coincide. -/
lemma eq_of_perm_of_pairwise_asymm {α : Type} {s : α → α → Prop}
    (hasym : ∀ a b, s a b → s b a → False) :
    ∀ {l₁ l₂ : List α}, l₁.Perm l₂ → l₁.Pairwise s → l₂.Pairwise s → l₁ = l₂ := by
  intro l₁
  induction l₁ with
  | nil =>
    intro l₂ hp _ _
    exact (hp.nil_eq).symm ▸ rfl
  | cons a t₁ ih =>
    intro l₂ hp h₁ h₂
    rcases l₂ with _ | ⟨b, t₂⟩
    · exact absurd (hp.symm.nil_eq) (by simp)
    have hab : a = b := by
      by_contra hne
      have ha2 : a ∈ b :: t₂ := hp.subset (List.mem_cons_self a t₁)
      have ha3 : a ∈ t₂ := (List.mem_cons.mp ha2).resolve_left hne
      have hsba : s b a := (List.pairwise_cons.mp h₂).1 a ha3
      have hb2 : b ∈ a :: t₁ := hp.symm.subset (List.mem_cons_self b t₂)
      have hb3 : b ∈ t₁ := (List.mem_cons.mp hb2).resolve_left fun hc => hne hc.symm
      have hsab : s a b := (List.pairwise_cons.mp h₁).1 b hb3
      exact hasym a b hsab hsba
    subst hab
    rw [ih hp.cons_inv (List.pairwise_cons.mp h₁).2 (List.pairwise_cons.mp h₂).2]

lemma dfFinal_cols {df : DataFrame} (xi yi : ℕ) (hθ : "_theta" ∉ df.cols) :
    (dfFinal df xi yi).cols = df.cols := by
  unfold dfFinal dropColumn dfShifted
  rw [dfSorted_cols_eq hθ]
  simp only
  rw [colIdx?_concat_self hθ]
  exact eraseIdx_concat_length df.cols "_theta"

lemma dfFinal_rows {df : DataFrame} (xi yi : ℕ) (hθ : "_theta" ∉ df.cols) :
    (dfFinal df xi yi).rows =
      ((dfSorted df xi yi).rows.drop (startIdx df xi yi) ++
        (dfSorted df xi yi).rows.take (startIdx df xi yi)).map
          (·.eraseIdx df.cols.length) := by
  unfold dfFinal dropColumn dfShifted
  rw [dfSorted_cols_eq hθ]
  simp only
  rw [colIdx?_concat_self hθ]

/-- Dropping the appended `_theta` cells recovers the original rows of a
rectangular frame. -/
lemma map_eraseIdx_map_appendTheta {df : DataFrame} (xi yi : ℕ) (hrect : Rect df) :
    (df.rows.map (appendTheta xi yi)).map (·.eraseIdx df.cols.length) = df.rows := by
  rw [List.map_map]
  have h1 : df.rows.map ((·.eraseIdx df.cols.length) ∘ appendTheta xi yi) =
      df.rows.map id := by
    refine List.map_congr_left fun r hr => ?_
    simp only [Function.comp_apply, id]
    rw [← hrect r hr]
    exact eraseIdx_appendTheta
  rw [h1, List.map_id]

lemma dfFinal_rows_perm {df : DataFrame} (xi yi : ℕ) (hθ : "_theta" ∉ df.cols)
    (hrect : Rect df) : (dfFinal df xi yi).rows.Perm df.rows := by
  rw [dfFinal_rows xi yi hθ]
  have h1 : ((dfSorted df xi yi).rows.drop (startIdx df xi yi) ++
      (dfSorted df xi yi).rows.take (startIdx df xi yi)).Perm
        (df.rows.map (appendTheta xi yi)) := by
    refine (drop_append_take_perm _ _).trans ?_
    have h2 := dfSorted_rows_perm df xi yi
    rw [dfTheta_eq hθ] at h2
    exact h2
  have h3 := h1.map (·.eraseIdx df.cols.length)
  rw [map_eraseIdx_map_appendTheta xi yi hrect] at h3
  exact h3

/-- C1. For every non-empty input `PointSet`, the reordered output is a
permutation of the input: same length and same multiset of records, with
all attribute values carried through unchanged — the claim holds for
every well-formed table that does not itself use the reserved transient
column name `_theta`; see `c1_counterexample` for the reserved-name
failure forced by line 58 of the source. -/
theorem c1_permutation {df : DataFrame} {xc yc : String} {out : ReorderOutput}
    (hout : reorder df xc yc = Except.ok out) (hθ : "_theta" ∉ df.cols)
    (hrect : Rect df) (hne : df.rows ≠ []) :
    out.df_final.rows.Perm df.rows ∧ out.df_final.rows.length = df.rows.length := by
  obtain ⟨xi, yi, hx, hy, hs, rfl⟩ := reorder_ok_elim hout
  have h1 := dfFinal_rows_perm xi yi hθ hrect
  exact ⟨h1, h1.length_eq⟩

/-- Witness for `c1_permutation`: the worked scenario of spec §8, with
point C scaled along its ray to integer coordinates. -/
theorem c1_permutation_witness :
    ([[Value.str "B", Value.num (-1), Value.num (-1)],
      [Value.str "C", Value.num (-4), Value.num (-1)],
      [Value.str "A", Value.num 1, Value.num 1],
      [Value.str "D", Value.num 1, Value.num (-1)]] : List Row).Perm
      [[Value.str "A", Value.num 1, Value.num 1], [Value.str "B", Value.num (-1), Value.num (-1)],
       [Value.str "C", Value.num (-4), Value.num (-1)], [Value.str "D", Value.num 1, Value.num (-1)]] ∧
    ([[Value.str "B", Value.num (-1), Value.num (-1)],
      [Value.str "C", Value.num (-4), Value.num (-1)],
      [Value.str "A", Value.num 1, Value.num 1],
      [Value.str "D", Value.num 1, Value.num (-1)]] : List Row).length = 4 :=
  @c1_permutation ⟨["label", "x", "y"],
      [[.str "A", .num 1, .num 1], [.str "B", .num (-1), .num (-1)],
       [.str "C", .num (-4), .num (-1)], [.str "D", .num 1, .num (-1)]]⟩
    "x" "y"
    ⟨⟨["label", "x", "y"],
      [[.str "B", .num (-1), .num (-1)], [.str "C", .num (-4), .num (-1)],
       [.str "A", .num 1, .num 1], [.str "D", .num 1, .num (-1)]]⟩, 2, false⟩
    (by decide) (by decide) (by decide) (by decide)

/-- C1, counterexample: an input that already carries a column named
`_theta` has that column overwritten at line 58 and dropped at line 86,
so its values are lost and the output rows are not a permutation of the
input rows. -/
theorem c1_counterexample :
    reorder ⟨["_theta", "x", "y"], [[.num 9, .num 1, .num 2]]⟩ "x" "y" =
      Except.ok ⟨⟨["x", "y"], [[.num 1, .num 2]]⟩, 0, true⟩ ∧
    ¬ ([[Value.num 1, Value.num 2]] : List Row).Perm
        [[Value.num 9, Value.num 1, Value.num 2]] := by
  constructor
  · decide
  · decide

/-! ### C6: the empty input -/

/-- C6 (amended).  On an empty input table the reorder pipeline does not
fail: `arctan2` of an empty series is empty, the sort and the shift are
no-ops, the third-quadrant set is empty, so the result is an empty table
with start index 0 and the no-third-quadrant warning. -/
theorem c6_empty_input {df : DataFrame} {xc yc : String} {xi yi : ℕ}
    (hx : colIdx? df.cols xc = some xi) (hy : colIdx? df.cols yc = some yi)
    (hempty : df.rows = []) :
    ∃ out, reorder df xc yc = Except.ok out ∧ out.df_final.rows = [] ∧
      out.start_index = 0 ∧ out.warned = true := by
  have hstr : hasStrCells df xi yi = false := by
    unfold hasStrCells
    rw [hempty]
    rfl
  have hrows : (dfTheta df xi yi).rows = [] := by
    unfold dfTheta setCol thetaSeries
    rcases hidx : colIdx? df.cols "_theta" with _ | i <;> simp [hempty]
  have hsorted : (dfSorted df xi yi).rows = [] := by
    unfold dfSorted
    rw [hrows]
    rfl
  refine ⟨_, reorder_eq_ok hx hy hstr, ?_, ?_, ?_⟩
  · show (dfFinal df xi yi).rows = []
    unfold dfFinal dropColumn dfShifted
    rcases hidx : colIdx? (dfSorted df xi yi).cols "_theta" with _ | i <;>
      simp [hsorted]
  · show startIdx df xi yi = 0
    unfold startIdx
    rw [hsorted]
    rfl
  · show warnedB df xi yi = true
    unfold warnedB
    rw [hsorted]
    rfl

/-- Witness for `c6_empty_input`. -/
theorem c6_empty_input_witness :
    ∃ out, reorder ⟨["x", "y"], []⟩ "x" "y" = Except.ok out ∧
      out.df_final.rows = [] ∧ out.start_index = 0 ∧ out.warned = true :=
  @c6_empty_input ⟨["x", "y"], []⟩ "x" "y" 0 1 (by decide) (by decide) rfl

/-- C6, counterexample: on the empty table the operation returns a
result instead of failing with an error. -/
theorem c6_counterexample :
    reorder ⟨["x", "y"], []⟩ "x" "y" =
      Except.ok ⟨⟨["x", "y"], []⟩, 0, true⟩ := by decide

/-! ### C7: missing columns and non-numeric values -/

/-- C7 (amended).  A selected column that is absent from the table
(`KeyError`) or contains a non-numeric string value (`TypeError` from
`arctan2`) makes the whole operation fail with no partial result; a
missing (NaN) value, however, does not fail — see
`c7_counterexample`. -/
theorem c7_invalid_field {df : DataFrame} {xc yc : String}
    (h : colIdx? df.cols xc = none ∨ colIdx? df.cols yc = none ∨
      ∃ xi yi, colIdx? df.cols xc = some xi ∧ colIdx? df.cols yc = some yi ∧
        hasStrCells df xi yi = true) :
    ∃ msg, reorder df xc yc = Except.error msg := by
  unfold reorder
  rcases h with h1 | h1 | ⟨xi, yi, hx, hy, hs⟩
  · rw [h1]
    rcases h2 : colIdx? df.cols yc with _ | yi <;> exact ⟨_, rfl⟩
  · rw [h1]
    rcases h2 : colIdx? df.cols xc with _ | xi <;> exact ⟨_, rfl⟩
  · rw [hx, hy]
    dsimp only
    rw [hs]
    exact ⟨_, rfl⟩

/-- Witness for `c7_invalid_field`: a string in the selected x column. -/
theorem c7_invalid_field_witness :
    ∃ msg, reorder ⟨["x", "y"], [[.str "abc", .num 1]]⟩ "x" "y" = Except.error msg :=
  c7_invalid_field (Or.inr (Or.inr ⟨0, 1, by decide, by decide, by decide⟩))

/-- C7, counterexample: a missing (empty) cell is read as NaN by
`read_csv`; `arctan2` maps it to NaN without raising, the row is sorted
last and is never a third-quadrant point, and the operation succeeds —
contradicting the claim that a missing value for any point fails the
whole operation. -/
theorem c7_counterexample :
    reorder ⟨["x", "y"], [[.na, .num 1]]⟩ "x" "y" =
      Except.ok ⟨⟨["x", "y"], [[.na, .num 1]]⟩, 0, true⟩ := by decide

/-! ### C4: inputs without a third-quadrant point -/

lemma isQ3_appendTheta {xi yi : ℕ} {r : Row} (hxlen : xi < r.length)
    (hylen : yi < r.length) :
    isQ3 xi yi (appendTheta xi yi r) = isQ3 xi yi r := by
  unfold isQ3
  rw [getCell_appendTheta_lt hxlen, getCell_appendTheta_lt hylen]

lemma mem_dfSorted_iff {df : DataFrame} {xi yi : ℕ} (hθ : "_theta" ∉ df.cols)
    {r' : Row} :
    r' ∈ (dfSorted df xi yi).rows ↔ r' ∈ df.rows.map (appendTheta xi yi) := by
  have hperm := dfSorted_rows_perm df xi yi
  rw [dfTheta_eq hθ] at hperm
  exact hperm.mem_iff

/-- When the frame does not already use the reserved `_theta` name, the
sorted rows carry no third-quadrant point unless the input does: the
line-66 mask reads the original coordinate cells, which sit strictly
before the appended angle cell. -/
lemma no_q3_sorted {df : DataFrame} {xi yi : ℕ} (hθ : "_theta" ∉ df.cols)
    (hrect : Rect df) (hxlen : xi < df.cols.length) (hylen : yi < df.cols.length)
    (hq3 : ∀ r ∈ df.rows, isQ3 xi yi r = false) :
    ∀ r' ∈ (dfSorted df xi yi).rows, isQ3 xi yi r' = false := by
  intro r' hmem
  obtain ⟨r, hr, rfl⟩ := List.mem_map.mp ((mem_dfSorted_iff hθ).mp hmem)
  rw [isQ3_appendTheta (hrect r hr ▸ hxlen) (hrect r hr ▸ hylen)]
  exact hq3 r hr

lemma dfShifted_eq_of_start_zero {df : DataFrame} {xi yi : ℕ}
    (h : startIdx df xi yi = 0) : dfShifted df xi yi = dfSorted df xi yi := by
  unfold dfShifted
  rw [h]
  simp

/-- C4.  For every non-empty input with no third-quadrant point the
operation still succeeds: the output is the full clockwise sort with no
rotation (the dropped-`_theta` sorted frame), the reported start index
is 0, and the non-fatal no-third-quadrant warning is emitted.  Stated,
like C1–C3, for inputs that do not use the reserved transient column
name `_theta`: selecting the transient angle column itself as a
coordinate would make the line-66 mask read the overwritten float
angles instead of the input coordinates. -/
theorem c4_no_third_quadrant {df : DataFrame} {xc yc : String} {xi yi : ℕ}
    (hx : colIdx? df.cols xc = some xi) (hy : colIdx? df.cols yc = some yi)
    (hstr : hasStrCells df xi yi = false) (hθ : "_theta" ∉ df.cols)
    (hrect : Rect df) (hne : df.rows ≠ [])
    (hq3 : ∀ r ∈ df.rows, isQ3 xi yi r = false) :
    reorder df xc yc =
      Except.ok ⟨dropColumn (dfSorted df xi yi) "_theta", 0, true⟩ := by
  have hall := no_q3_sorted hθ hrect (colIdx?_lt_length hx) (colIdx?_lt_length hy) hq3
  have hs0 : startIdx df xi yi = 0 :=
    startIndex_eq_zero (q3Entries_eq_nil_iff.mpr hall)
  have hw : warnedB df xi yi = true := q3IsEmpty_iff.mpr hall
  rw [reorder_eq_ok hx hy hstr, hs0, hw]
  unfold dfFinal
  rw [dfShifted_eq_of_start_zero hs0]

/-- Witness for `c4_no_third_quadrant`: the no-Q3 scenario of spec §8,
points (A,1,1), (B,-1,1), (C,1,-1). -/
theorem c4_no_third_quadrant_witness :
    reorder ⟨["label", "x", "y"],
        [[.str "A", .num 1, .num 1], [.str "B", .num (-1), .num 1],
         [.str "C", .num 1, .num (-1)]]⟩ "x" "y" =
      Except.ok ⟨dropColumn (dfSorted ⟨["label", "x", "y"],
        [[.str "A", .num 1, .num 1], [.str "B", .num (-1), .num 1],
         [.str "C", .num 1, .num (-1)]]⟩ 1 2) "_theta", 0, true⟩ :=
  c4_no_third_quadrant (by decide) (by decide) (by decide) (by decide)
    (by decide) (by decide) (by decide)

/-! ### C8 and C10: columns of the displayed/exported table and
mutation of the input frame -/

lemma setCol_cols_of_not_mem {t : DataFrame} {c : String} (h : c ∉ t.cols)
    (vals : List Value) : (setCol t c vals).cols = t.cols ++ [c] := by
  unfold setCol
  rw [(colIdx?_eq_none_iff t.cols c).mpr h]

lemma setCol_cols_of_idx {t : DataFrame} {c : String} {i : ℕ}
    (h : colIdx? t.cols c = some i) (vals : List Value) :
    (setCol t c vals).cols = t.cols := by
  unfold setCol
  rw [h]

lemma setLocZero_cols (t : DataFrame) (i : ℕ) (v : Value) :
    (setLocZero t i v).cols = t.cols := by
  unfold setLocZero
  cases t.rows <;> rfl

lemma mem_addTypeCol_cols {t : DataFrame} {c : String}
    (h : c ∈ (addTypeCol t).cols) : c ∈ t.cols ∨ c = "Type" := by
  unfold addTypeCol at h
  rw [setLocZero_cols] at h
  rcases hidx : colIdx? t.cols "Type" with _ | i
  · rw [setCol_cols_of_not_mem ((colIdx?_eq_none_iff t.cols "Type").mp hidx)] at h
    rcases List.mem_append.mp h with h1 | h1
    · exact Or.inl h1
    · simp only [List.mem_singleton] at h1
      exact Or.inr h1
  · rw [setCol_cols_of_idx hidx] at h
    exact Or.inl h

lemma addTypeCol_cols_of_not_mem {t : DataFrame} (h : "Type" ∉ t.cols) :
    (addTypeCol t).cols = t.cols ++ ["Type"] := by
  unfold addTypeCol
  rw [setLocZero_cols, setCol_cols_of_not_mem h]

/-- C8 (amended).  The table handed to display and export carries the
input columns plus the appended `Type` start-marker column; the
transient angle column does not appear (it is dropped at line 86), but
the exported header is the original column names followed by `Type`,
not the original column names alone. -/
theorem c8_export_columns {df : DataFrame} {xc yc : String} {out : ReorderOutput}
    (hout : reorder df xc yc = Except.ok out) (hθ : "_theta" ∉ df.cols)
    (hT : "Type" ∉ df.cols) :
    (exportTable out.df_final).cols = df.cols ++ ["Type"] ∧
      "_theta" ∉ (exportTable out.df_final).cols := by
  obtain ⟨xi, yi, hx, hy, hs, rfl⟩ := reorder_ok_elim hout
  have hcols : (dfFinal df xi yi).cols = df.cols := dfFinal_cols xi yi hθ
  have hT2 : "Type" ∉ (dfFinal df xi yi).cols := hcols ▸ hT
  have h1 : (exportTable (dfFinal df xi yi)).cols = df.cols ++ ["Type"] := by
    show (addTypeCol (dfFinal df xi yi)).cols = df.cols ++ ["Type"]
    rw [addTypeCol_cols_of_not_mem hT2, hcols]
  refine ⟨h1, ?_⟩
  rw [h1]
  intro hmem
  rcases List.mem_append.mp hmem with h2 | h2
  · exact hθ h2
  · simp only [List.mem_singleton] at h2
    exact absurd h2 (by decide)

/-- Witness for `c8_export_columns`. -/
theorem c8_export_columns_witness :
    (exportTable (⟨⟨["node", "x", "y"], [[.num 1, .num 1, .num 1]]⟩, 0, true⟩ :
      ReorderOutput).df_final).cols = ["node", "x", "y"] ++ ["Type"] ∧
    "_theta" ∉ (exportTable (⟨⟨["node", "x", "y"], [[.num 1, .num 1, .num 1]]⟩, 0, true⟩ :
      ReorderOutput).df_final).cols :=
  @c8_export_columns ⟨["node", "x", "y"], [[.num 1, .num 1, .num 1]]⟩ "x" "y"
    ⟨⟨["node", "x", "y"], [[.num 1, .num 1, .num 1]]⟩, 0, true⟩
    (by decide) (by decide) (by decide)

/-- C8, counterexample: the `Type` marker column added at lines 100–101
for the chart is still part of `df_final` when lines 117–120 serialize
it, so the exported header row is not the original column names. -/
theorem c8_counterexample :
    reorder ⟨["node", "x", "y"], [[.num 1, .num 1, .num 1]]⟩ "x" "y" =
      Except.ok ⟨⟨["node", "x", "y"], [[.num 1, .num 1, .num 1]]⟩, 0, true⟩ ∧
    (exportTable ⟨["node", "x", "y"], [[.num 1, .num 1, .num 1]]⟩).cols ≠
      ["node", "x", "y"] := by
  constructor
  · decide
  · decide

lemma not_mem_eraseIdx_of_colIdx? : ∀ {cols : List String} {c : String} {i : ℕ},
    cols.Nodup → colIdx? cols c = some i → c ∉ cols.eraseIdx i := by
  intro cols
  induction cols with
  | nil => intro c i _ h; simp [colIdx?] at h
  | cons c' cols ih =>
    intro c i hnd h
    by_cases hc : c' = c
    · rw [colIdx?, if_pos hc] at h
      injection h with h0
      subst h0
      subst hc
      simp only [List.eraseIdx]
      exact (List.nodup_cons.mp hnd).1
    · simp only [colIdx?, if_neg hc, Option.map_eq_some'] at h
      obtain ⟨j, hj, rfl⟩ := h
      simp only [List.eraseIdx, List.mem_cons]
      rintro (h1 | h1)
      · exact hc h1.symm
      · exact ih (List.nodup_cons.mp hnd).2 hj h1

/-- C10.  On any successful run, the only mutation of the input frame is
the `_theta` column written at line 58: away from that column the frame
is unchanged (schema and values), and the transient angle column never
reaches the exported table. -/
theorem c10_frame_effects {df : DataFrame} {xc yc : String} {xi yi : ℕ}
    (hx : colIdx? df.cols xc = some xi) (hy : colIdx? df.cols yc = some yi)
    (hstr : hasStrCells df xi yi = false) (hrect : Rect df)
    (hnodup : df.cols.Nodup) :
    reorder df xc yc =
      Except.ok ⟨dfFinal df xi yi, startIdx df xi yi, warnedB df xi yi⟩ ∧
    dropColumn (dfTheta df xi yi) "_theta" = dropColumn df "_theta" ∧
    "_theta" ∉ (exportTable (dfFinal df xi yi)).cols := by
  refine ⟨reorder_eq_ok hx hy hstr, ?_, ?_⟩
  · by_cases hθ : "_theta" ∈ df.cols
    · -- overwrite case: the column is replaced in place, dropping it on
      -- both sides erases the same position
      obtain ⟨i, hi⟩ := colIdx?_isSome_of_mem hθ
      unfold dfTheta setCol thetaSeries dropColumn
      rw [hi]
      simp only [zipWith_map_self, hi, List.map_map]
      congr 1
      refine List.map_congr_left fun r hr => ?_
      exact eraseIdx_set_same r i (rowTheta xi yi r)
    · -- append case: the appended column is dropped again, recovering
      -- the input frame, and the input frame has nothing to drop
      rw [dfTheta_eq hθ]
      unfold dropColumn
      simp only
      rw [colIdx?_concat_self hθ, (colIdx?_eq_none_iff df.cols "_theta").mpr hθ]
      dsimp only
      rw [eraseIdx_concat_length]
      have h2 := map_eraseIdx_map_appendTheta xi yi hrect
      rw [h2]
  · intro hmem
    rcases mem_addTypeCol_cols hmem with h1 | h1
    · -- `_theta` is not among the final columns
      by_cases hθ : "_theta" ∈ df.cols
      · obtain ⟨i, hi⟩ := colIdx?_isSome_of_mem hθ
        have hcols : (dfFinal df xi yi).cols = df.cols.eraseIdx i := by
          unfold dfFinal dropColumn dfShifted dfSorted
          have hθcols : (dfTheta df xi yi).cols = df.cols := by
            unfold dfTheta
            exact setCol_cols_of_idx hi _
          simp only [hθcols, hi]
        rw [hcols] at h1
        exact not_mem_eraseIdx_of_colIdx? hnodup hi h1
      · rw [dfFinal_cols xi yi hθ] at h1
        exact hθ h1
    · exact absurd h1 (by decide)

/-- Witness for `c10_frame_effects`. -/
theorem c10_frame_effects_witness :
    reorder ⟨["x", "y"], [[.num 1, .num 2]]⟩ "x" "y" =
      Except.ok ⟨dfFinal ⟨["x", "y"], [[.num 1, .num 2]]⟩ 0 1,
        startIdx ⟨["x", "y"], [[.num 1, .num 2]]⟩ 0 1,
        warnedB ⟨["x", "y"], [[.num 1, .num 2]]⟩ 0 1⟩ ∧
    dropColumn (dfTheta ⟨["x", "y"], [[.num 1, .num 2]]⟩ 0 1) "_theta" =
      dropColumn ⟨["x", "y"], [[.num 1, .num 2]]⟩ "_theta" ∧
    "_theta" ∉ (exportTable (dfFinal ⟨["x", "y"], [[.num 1, .num 2]]⟩ 0 1)).cols :=
  c10_frame_effects (by decide) (by decide) (by decide) (by decide) (by decide)

/-! ### C2: the start point -/

lemma q3Entries_dfSorted_ne_nil {df : DataFrame} {xi yi : ℕ}
    (hθ : "_theta" ∉ df.cols) (hrect : Rect df)
    (hxlen : xi < df.cols.length) (hylen : yi < df.cols.length)
    {r0 : Row} (hr0 : r0 ∈ df.rows) (hq0 : isQ3 xi yi r0 = true) :
    q3Entries xi yi (dfSorted df xi yi).rows ≠ [] := by
  intro hnil
  have hall := q3Entries_eq_nil_iff.mp hnil
  have hmem : appendTheta xi yi r0 ∈ (dfSorted df xi yi).rows :=
    (mem_dfSorted_iff hθ).mpr (List.mem_map_of_mem _ hr0)
  have h1 := hall _ hmem
  rw [isQ3_appendTheta (hrect r0 hr0 ▸ hxlen) (hrect r0 hr0 ▸ hylen), hq0] at h1
  cases h1

/-- C2.  If the input contains a third-quadrant point (x < 0 and y < 0),
the first row of the output is a third-quadrant row whose x value is
maximal among all third-quadrant rows, and — the `idxmax` first-occurrence
tie-break — every strictly earlier third-quadrant row of the
clockwise-sorted sequence has a strictly smaller x value. -/
theorem c2_start_point {df : DataFrame} {xc yc : String} {xi yi : ℕ}
    (hx : colIdx? df.cols xc = some xi) (hy : colIdx? df.cols yc = some yi)
    (hstr : hasStrCells df xi yi = false) (hθ : "_theta" ∉ df.cols) (hrect : Rect df)
    {r0 : Row} (hr0 : r0 ∈ df.rows) (hq0 : isQ3 xi yi r0 = true) :
    ∃ out rk rest, reorder df xc yc = Except.ok out ∧
      out.df_final.rows = rk :: rest ∧ rk ∈ df.rows ∧ isQ3 xi yi rk = true ∧
      (∀ r ∈ df.rows, isQ3 xi yi r = true →
        ratOf (getCell r xi) ≤ ratOf (getCell rk xi)) ∧
      (∀ j r', j < out.start_index → (dfSorted df xi yi).rows.get? j = some r' →
        isQ3 xi yi r' = true → ratOf (getCell r' xi) < ratOf (getCell rk xi)) := by
  have hxlen : xi < df.cols.length := colIdx?_lt_length hx
  have hylen : yi < df.cols.length := colIdx?_lt_length hy
  have hne := q3Entries_dfSorted_ne_nil hθ hrect hxlen hylen hr0 hq0
  obtain ⟨rkD, hget, hq3D, hmax, hfirst⟩ := startIndex_spec hne
  -- the winning sorted row comes from an input row
  have hmemD : rkD ∈ (dfSorted df xi yi).rows :=
    List.mem_iff_get?.mpr ⟨_, hget⟩
  obtain ⟨rk0, hrk0, hrk0eq⟩ := List.mem_map.mp ((mem_dfSorted_iff hθ).mp hmemD)
  have hrk0len : rk0.length = df.cols.length := hrect rk0 hrk0
  -- the circular shift puts it first
  have hklt : startIdx df xi yi < (dfSorted df xi yi).rows.length :=
    startIndex_lt_length hne
  have hdrop : (dfSorted df xi yi).rows.drop (startIdx df xi yi) =
      rkD :: (dfSorted df xi yi).rows.drop (startIdx df xi yi + 1) := by
    obtain ⟨h1, h2⟩ := List.get?_eq_some.mp hget
    show List.drop (startIndex xi yi (dfSorted df xi yi).rows) (dfSorted df xi yi).rows =
      rkD :: List.drop (startIndex xi yi (dfSorted df xi yi).rows + 1) (dfSorted df xi yi).rows
    rw [List.drop_eq_getElem_cons h1]
    congr 1
  have hrowseq : (dfFinal df xi yi).rows =
      rk0 :: ((dfSorted df xi yi).rows.drop (startIdx df xi yi + 1) ++
        (dfSorted df xi yi).rows.take (startIdx df xi yi)).map
          (·.eraseIdx df.cols.length) := by
    rw [dfFinal_rows xi yi hθ, hdrop]
    simp only [List.cons_append, List.map_cons]
    congr 1
    rw [← hrk0eq, ← hrk0len]
    exact eraseIdx_appendTheta
  refine ⟨⟨dfFinal df xi yi, startIdx df xi yi, warnedB df xi yi⟩, rk0, _,
    reorder_eq_ok hx hy hstr, hrowseq, hrk0, ?_, ?_, ?_⟩
  · rw [← isQ3_appendTheta (hrk0len ▸ hxlen) (hrk0len ▸ hylen), hrk0eq]
    exact hq3D
  · intro r hr hq
    have hfr : appendTheta xi yi r ∈ (dfSorted df xi yi).rows :=
      (mem_dfSorted_iff hθ).mpr (List.mem_map_of_mem _ hr)
    obtain ⟨j, hj⟩ := List.mem_iff_get?.mp hfr
    have hrlen : r.length = df.cols.length := hrect r hr
    have hent : (j, appendTheta xi yi r) ∈ q3Entries xi yi (dfSorted df xi yi).rows :=
      mem_q3Entries.mpr ⟨hj, by rwa [isQ3_appendTheta (hrlen ▸ hxlen) (hrlen ▸ hylen)]⟩
    have h2 := hmax _ hent
    simp only at h2
    rw [← hrk0eq, getCell_appendTheta_lt (hrlen ▸ hxlen),
      getCell_appendTheta_lt (hrk0len ▸ hxlen)] at h2
    exact h2
  · intro j r' hlt hget' hq'
    have hent : (j, r') ∈ q3Entries xi yi (dfSorted df xi yi).rows :=
      mem_q3Entries.mpr ⟨hget', hq'⟩
    have h2 := hfirst _ hent hlt
    simp only at h2
    rw [← hrk0eq, getCell_appendTheta_lt (hrk0len ▸ hxlen)] at h2
    exact h2

/-- Witness for `c2_start_point`: the worked scenario of spec §8 (point
C scaled along its ray to integer coordinates), where B = (-1,-1) wins
with the maximal third-quadrant x. -/
theorem c2_start_point_witness :
    ∃ out rk rest,
      reorder ⟨["label", "x", "y"],
        [[.str "A", .num 1, .num 1], [.str "B", .num (-1), .num (-1)],
         [.str "C", .num (-4), .num (-1)], [.str "D", .num 1, .num (-1)]]⟩
        "x" "y" = Except.ok out ∧
      out.df_final.rows = rk :: rest ∧
      rk ∈ ([[.str "A", .num 1, .num 1], [.str "B", .num (-1), .num (-1)],
             [.str "C", .num (-4), .num (-1)], [.str "D", .num 1, .num (-1)]] : List Row) ∧
      isQ3 1 2 rk = true ∧
      (∀ r ∈ ([[.str "A", .num 1, .num 1], [.str "B", .num (-1), .num (-1)],
               [.str "C", .num (-4), .num (-1)], [.str "D", .num 1, .num (-1)]] : List Row),
        isQ3 1 2 r = true → ratOf (getCell r 1) ≤ ratOf (getCell rk 1)) ∧
      (∀ j r', j < out.start_index →
        (dfSorted ⟨["label", "x", "y"],
          [[.str "A", .num 1, .num 1], [.str "B", .num (-1), .num (-1)],
           [.str "C", .num (-4), .num (-1)], [.str "D", .num 1, .num (-1)]]⟩ 1 2).rows.get? j =
          some r' →
        isQ3 1 2 r' = true → ratOf (getCell r' 1) < ratOf (getCell rk 1)) :=
  @c2_start_point ⟨["label", "x", "y"],
      [[.str "A", .num 1, .num 1], [.str "B", .num (-1), .num (-1)],
       [.str "C", .num (-4), .num (-1)], [.str "D", .num 1, .num (-1)]]⟩
    "x" "y" 1 2 (by decide) (by decide) (by decide) (by decide) (by decide)
    [.str "B", .num (-1), .num (-1)] (by decide) (by decide)

/-! ### C3: the clockwise property -/

lemma isNumV_eq {v : Value} (h : isNumV v = true) : v = .num (ratOf v) := by
  cases v <;> simp_all [isNumV, ratOf]

lemma rowTheta_eq_angle {xi yi : ℕ} {r : Row} {qx qy : ℚ}
    (hnx : getCell r xi = .num qx) (hny : getCell r yi = .num qy) :
    rowTheta xi yi r = .angle qx qy := by
  unfold rowTheta
  rw [hnx, hny]

lemma vGe_angle_angle {x y x' y' : ℚ} :
    vGe (.angle x y) (.angle x' y') ↔ angleGe (x, y) (x', y') := Iff.rfl

/-- C3.  The polar angles `atan2(y, x)` taken along the output form a
single rotation of a non-increasing sequence: the output is
`l.drop k ++ l.take k` for a list `l` whose consecutive elements have
non-increasing angle. -/
theorem c3_clockwise {df : DataFrame} {xc yc : String} {xi yi : ℕ}
    (hx : colIdx? df.cols xc = some xi) (hy : colIdx? df.cols yc = some yi)
    (hstr : hasStrCells df xi yi = false) (hθ : "_theta" ∉ df.cols)
    (hrect : Rect df) (hne : df.rows ≠ [])
    (hnum : ∀ r ∈ df.rows, isNumV (getCell r xi) = true ∧ isNumV (getCell r yi) = true) :
    ∃ (out : ReorderOutput) (l : List Row) (k : ℕ),
      reorder df xc yc = Except.ok out ∧ k ≤ l.length ∧
      out.df_final.rows = l.drop k ++ l.take k ∧
      l.Chain' (fun r1 r2 =>
        angleGe (ratOf (getCell r1 xi), ratOf (getCell r1 yi))
          (ratOf (getCell r2 xi), ratOf (getCell r2 yi))) := by
  have hxlen : xi < df.cols.length := colIdx?_lt_length hx
  have hylen : yi < df.cols.length := colIdx?_lt_length hy
  refine ⟨⟨dfFinal df xi yi, startIdx df xi yi, warnedB df xi yi⟩,
    (dfSorted df xi yi).rows.map (·.eraseIdx df.cols.length), startIdx df xi yi,
    reorder_eq_ok hx hy hstr, ?_, ?_, ?_⟩
  · -- the start index is at most the length
    rw [List.length_map]
    rcases hq : q3Entries xi yi (dfSorted df xi yi).rows with _ | ⟨h, t⟩
    · show startIndex xi yi (dfSorted df xi yi).rows ≤ _
      rw [startIndex_eq_zero hq]
      exact Nat.zero_le _
    · exact le_of_lt (startIndex_lt_length (by rw [hq]; simp))
  · -- the output rows are the rotation of the dropped-theta sorted rows
    show (dfFinal df xi yi).rows = _
    rw [dfFinal_rows xi yi hθ]
    rw [List.map_append, List.map_drop, List.map_take]
  · -- consecutive sorted rows have non-increasing angle
    refine List.Pairwise.chain' ?_
    rw [List.pairwise_map]
    have hD := dfSorted_rows_sorted df xi yi
    rw [thetaIdx_eq hθ] at hD
    refine hD.imp_of_mem ?_
    intro a b ha hb hab
    obtain ⟨ra, hra, rfl⟩ := List.mem_map.mp ((mem_dfSorted_iff hθ).mp ha)
    obtain ⟨rb, hrb, rfl⟩ := List.mem_map.mp ((mem_dfSorted_iff hθ).mp hb)
    have hralen : ra.length = df.cols.length := hrect ra hra
    have hrblen : rb.length = df.cols.length := hrect rb hrb
    unfold colR at hab
    rw [show df.cols.length = ra.length from hralen.symm] at hab
    rw [getCell_appendTheta_len] at hab
    rw [show ra.length = rb.length from hralen.trans hrblen.symm] at hab
    rw [getCell_appendTheta_len] at hab
    have hna := hnum ra hra
    have hnb := hnum rb hrb
    rw [rowTheta_eq_angle (isNumV_eq hna.1) (isNumV_eq hna.2),
      rowTheta_eq_angle (isNumV_eq hnb.1) (isNumV_eq hnb.2)] at hab
    rw [← hralen] at *
    rw [show (appendTheta xi yi ra).eraseIdx ra.length = ra from eraseIdx_appendTheta]
    rw [show (appendTheta xi yi rb).eraseIdx ra.length = rb from
      (hralen.trans hrblen.symm) ▸ eraseIdx_appendTheta]
    exact vGe_angle_angle.mp hab

/-- Witness for `c3_clockwise`: the worked scenario of spec §8 (point C
scaled along its ray), whose sorted angle order is A, D, B, C. -/
theorem c3_clockwise_witness :
    ∃ (out : ReorderOutput) (l : List Row) (k : ℕ),
      reorder ⟨["label", "x", "y"],
        [[.str "A", .num 1, .num 1], [.str "B", .num (-1), .num (-1)],
         [.str "C", .num (-4), .num (-1)], [.str "D", .num 1, .num (-1)]]⟩
        "x" "y" = Except.ok out ∧ k ≤ l.length ∧
      out.df_final.rows = l.drop k ++ l.take k ∧
      l.Chain' (fun r1 r2 =>
        angleGe (ratOf (getCell r1 1), ratOf (getCell r1 2))
          (ratOf (getCell r2 1), ratOf (getCell r2 2))) :=
  c3_clockwise (by decide) (by decide) (by decide) (by decide) (by decide)
    (by decide) (by decide)

/-! ### C9: idempotence on canonical outputs -/

lemma hasStrCells_false_iff {t : DataFrame} {xi yi : ℕ} :
    hasStrCells t xi yi = false ↔
      ∀ r ∈ t.rows, isStrV (getCell r xi) = false ∧ isStrV (getCell r yi) = false := by
  unfold hasStrCells
  rw [List.any_eq_false]
  constructor
  · intro h r hr
    have h1 := h r hr
    simp only [Bool.or_eq_true, not_or, Bool.not_eq_true] at h1
    exact h1
  · intro h r hr
    simp only [Bool.or_eq_true, not_or, Bool.not_eq_true]
    exact h r hr

lemma colR_appendTheta {xi yi len : ℕ} {r1 r2 : Row}
    (h1 : r1.length = len) (h2 : r2.length = len) :
    colR len (appendTheta xi yi r1) (appendTheta xi yi r2) ↔ thetaR xi yi r1 r2 := by
  have e1 : getCell (appendTheta xi yi r1) len = rowTheta xi yi r1 := by
    rw [← h1]; exact getCell_appendTheta_len
  have e2 : getCell (appendTheta xi yi r2) len = rowTheta xi yi r2 := by
    rw [← h2]; exact getCell_appendTheta_len
  unfold colR thetaR
  rw [e1, e2]

/-- C9 (amended).  On an input in which no two points share the same
polar angle, applying the reorder operation to its own output returns
the output unchanged.  With equal-angle points the pipeline is not
idempotent — see `c9_counterexample` — because the circular shift can
cut through a group of equal-angle rows, and the stable re-sort then
regroups them. -/
theorem c9_idempotent {df : DataFrame} {xc yc : String} {xi yi : ℕ}
    (hx : colIdx? df.cols xc = some xi) (hy : colIdx? df.cols yc = some yi)
    (hstr : hasStrCells df xi yi = false) (hθ : "_theta" ∉ df.cols)
    (hrect : Rect df) (hne : df.rows ≠ [])
    (hdist : df.rows.Pairwise fun r1 r2 =>
      ¬ (thetaR xi yi r1 r2 ∧ thetaR xi yi r2 r1)) :
    ∃ out out2, reorder df xc yc = Except.ok out ∧
      reorder out.df_final xc yc = Except.ok out2 ∧
      out2.df_final.rows = out.df_final.rows := by
  have hcols2 : (dfFinal df xi yi).cols = df.cols := dfFinal_cols xi yi hθ
  have hFperm : (dfFinal df xi yi).rows.Perm df.rows := dfFinal_rows_perm xi yi hθ hrect
  have hx2 : colIdx? (dfFinal df xi yi).cols xc = some xi := by rw [hcols2]; exact hx
  have hy2 : colIdx? (dfFinal df xi yi).cols yc = some yi := by rw [hcols2]; exact hy
  have hθ2 : "_theta" ∉ (dfFinal df xi yi).cols := by rw [hcols2]; exact hθ
  have hstr2 : hasStrCells (dfFinal df xi yi) xi yi = false := by
    rw [hasStrCells_false_iff] at hstr ⊢
    intro r hr
    exact hstr r (hFperm.subset hr)
  have hrect2 : Rect (dfFinal df xi yi) := by
    intro r hr
    rw [hcols2]
    exact hrect r (hFperm.subset hr)
  refine ⟨⟨dfFinal df xi yi, startIdx df xi yi, warnedB df xi yi⟩, _,
    reorder_eq_ok hx hy hstr, reorder_eq_ok hx2 hy2 hstr2, ?_⟩
  show (dfFinal (dfFinal df xi yi) xi yi).rows = (dfFinal df xi yi).rows
  -- re-appending the theta column to the final rows rebuilds the
  -- rotation of the sorted rows
  have hmemD : ∀ a ∈ (dfSorted df xi yi).rows, ∃ r ∈ df.rows, a = appendTheta xi yi r := by
    intro a ha
    obtain ⟨r, hr, hre⟩ := List.mem_map.mp ((mem_dfSorted_iff hθ).mp ha)
    exact ⟨r, hr, hre.symm⟩
  have hrot_sub : ∀ a ∈ (dfSorted df xi yi).rows.drop (startIdx df xi yi) ++
      (dfSorted df xi yi).rows.take (startIdx df xi yi),
      a ∈ (dfSorted df xi yi).rows := by
    intro a ha
    rcases List.mem_append.mp ha with h1 | h1
    · exact List.drop_subset _ _ h1
    · exact List.take_subset _ _ h1
  have hA : (dfFinal df xi yi).rows.map (appendTheta xi yi) =
      (dfSorted df xi yi).rows.drop (startIdx df xi yi) ++
        (dfSorted df xi yi).rows.take (startIdx df xi yi) := by
    rw [dfFinal_rows xi yi hθ, List.map_map]
    have h1 : ∀ a ∈ (dfSorted df xi yi).rows.drop (startIdx df xi yi) ++
        (dfSorted df xi yi).rows.take (startIdx df xi yi),
        (appendTheta xi yi ∘ (·.eraseIdx df.cols.length)) a = id a := by
      intro a ha
      obtain ⟨r, hr, rfl⟩ := hmemD a (hrot_sub a ha)
      simp only [Function.comp_apply, id]
      rw [show (appendTheta xi yi r).eraseIdx df.cols.length = r by
        rw [← hrect r hr]; exact eraseIdx_appendTheta]
    rw [List.map_congr_left h1, List.map_id]
  have hθidx2 : thetaIdx (dfFinal df xi yi) xi yi = df.cols.length := by
    rw [thetaIdx_eq hθ2, hcols2]
  have hD2 : (dfSorted (dfFinal df xi yi) xi yi).rows =
      List.insertionSort (colR df.cols.length)
        ((dfSorted df xi yi).rows.drop (startIdx df xi yi) ++
          (dfSorted df xi yi).rows.take (startIdx df xi yi)) := by
    rw [dfSorted_rows_eq hθ2, hθidx2, hA]
  -- both sorted sequences are strictly sorted and permutations of each
  -- other, hence equal
  have hsymm : Symmetric (fun a b : Row =>
      ¬ (colR df.cols.length a b ∧ colR df.cols.length b a)) :=
    fun _ _ h hc => h ⟨hc.2, hc.1⟩
  have hsort1 : (dfSorted df xi yi).rows.Sorted (colR df.cols.length) := by
    have h := dfSorted_rows_sorted df xi yi
    rwa [thetaIdx_eq hθ] at h
  have hdistD : (dfSorted df xi yi).rows.Pairwise fun a b =>
      ¬ (colR df.cols.length a b ∧ colR df.cols.length b a) := by
    have hperm : (dfSorted df xi yi).rows.Perm (df.rows.map (appendTheta xi yi)) := by
      have h := dfSorted_rows_perm df xi yi
      rwa [dfTheta_eq hθ] at h
    rw [hperm.pairwise_iff fun h => hsymm h]
    rw [List.pairwise_map]
    refine hdist.imp_of_mem ?_
    intro r1 r2 h1 h2 hnd hc
    exact hnd ⟨(colR_appendTheta (hrect r1 h1) (hrect r2 h2)).mp hc.1,
      (colR_appendTheta (hrect r2 h2) (hrect r1 h1)).mp hc.2⟩
  have hsort2 : (dfSorted (dfFinal df xi yi) xi yi).rows.Sorted (colR df.cols.length) := by
    have h := dfSorted_rows_sorted (dfFinal df xi yi) xi yi
    rwa [hθidx2] at h
  have hpermD2 : (dfSorted (dfFinal df xi yi) xi yi).rows.Perm
      (dfSorted df xi yi).rows := by
    rw [hD2]
    exact (List.perm_insertionSort _ _).trans (drop_append_take_perm _ _)
  have hdistD2 : (dfSorted (dfFinal df xi yi) xi yi).rows.Pairwise fun a b =>
      ¬ (colR df.cols.length a b ∧ colR df.cols.length b a) := by
    rw [hpermD2.pairwise_iff fun h => hsymm h]
    exact hdistD
  have hstrict1 : (dfSorted df xi yi).rows.Pairwise fun a b =>
      colR df.cols.length a b ∧ ¬ colR df.cols.length b a :=
    List.Pairwise.imp (fun h => ⟨h.1, fun hc => h.2 ⟨h.1, hc⟩⟩) (hsort1.and hdistD)
  have hstrict2 : (dfSorted (dfFinal df xi yi) xi yi).rows.Pairwise fun a b =>
      colR df.cols.length a b ∧ ¬ colR df.cols.length b a :=
    List.Pairwise.imp (fun h => ⟨h.1, fun hc => h.2 ⟨h.1, hc⟩⟩) (hsort2.and hdistD2)
  have hDeq : (dfSorted (dfFinal df xi yi) xi yi).rows = (dfSorted df xi yi).rows :=
    eq_of_perm_of_pairwise_asymm (fun _ _ h1 h2 => h1.2 h2.1) hpermD2 hstrict2 hstrict1
  have hk2 : startIdx (dfFinal df xi yi) xi yi = startIdx df xi yi := by
    show startIndex xi yi (dfSorted (dfFinal df xi yi) xi yi).rows =
      startIndex xi yi (dfSorted df xi yi).rows
    rw [hDeq]
  rw [dfFinal_rows xi yi hθ2]
  simp only [hcols2, hDeq, hk2]
  rw [← dfFinal_rows xi yi hθ]

/-- Witness for `c9_idempotent`: the spec §8 scenario (all four angles
distinct). -/
theorem c9_idempotent_witness :
    ∃ out out2,
      reorder ⟨["label", "x", "y"],
        [[.str "A", .num 1, .num 1], [.str "B", .num (-1), .num (-1)],
         [.str "C", .num (-4), .num (-1)], [.str "D", .num 1, .num (-1)]]⟩
        "x" "y" = Except.ok out ∧
      reorder out.df_final "x" "y" = Except.ok out2 ∧
      out2.df_final.rows = out.df_final.rows :=
  @c9_idempotent ⟨["label", "x", "y"],
      [[.str "A", .num 1, .num 1], [.str "B", .num (-1), .num (-1)],
       [.str "C", .num (-4), .num (-1)], [.str "D", .num 1, .num (-1)]]⟩
    "x" "y" 1 2 (by decide) (by decide) (by decide)
    (by decide) (by decide) (by decide) (by decide)

/-- C9, counterexample: with two points on the same ray (equal angle)
the pipeline is not idempotent.  For input rows (1,1), (-2,-2), (-1,-1)
the first run returns the canonical output [(-1,-1), (1,1), (-2,-2)]
(the max-x third-quadrant row (-1,-1) cut out of the middle of its
equal-angle group), and reordering that canonical output changes it to
[(-1,-1), (-2,-2), (1,1)]. -/
theorem c9_counterexample :
    reorder ⟨["x", "y"], [[.num 1, .num 1], [.num (-2), .num (-2)],
        [.num (-1), .num (-1)]]⟩ "x" "y" =
      Except.ok ⟨⟨["x", "y"], [[.num (-1), .num (-1)], [.num 1, .num 1],
        [.num (-2), .num (-2)]]⟩, 2, false⟩ ∧
    reorder ⟨["x", "y"], [[.num (-1), .num (-1)], [.num 1, .num 1],
        [.num (-2), .num (-2)]]⟩ "x" "y" =
      Except.ok ⟨⟨["x", "y"], [[.num (-1), .num (-1)], [.num (-2), .num (-2)],
        [.num 1, .num 1]]⟩, 1, false⟩ ∧
    ([[Value.num (-1), Value.num (-1)], [Value.num (-2), Value.num (-2)],
      [Value.num 1, Value.num 1]] : List Row) ≠
      [[Value.num (-1), Value.num (-1)], [Value.num 1, Value.num 1],
       [Value.num (-2), Value.num (-2)]] := by
  refine ⟨by decide, by decide, by decide⟩

end TunnelSorter
